import Mathlib

/-!
Shallow embedding of the algorithmic core of the `dengue` repository
(`src/dengue_calendario.py` and the scale construction repeated in
`src/dengue_estatal.py` / `src/dengue_municipal.py`).

Dates are modelled as natural day numbers counted from a Monday, so that
`d % 7` is the ISO weekday of day `d` (0 = Monday … 6 = Sunday); consecutive
calendar days are consecutive numbers.  A `DaySeries` is a list of
`(date, total)` pairs, mirroring the `final` DataFrame whose index is the
day range and whose `total` column holds the per-day counts.
-/

namespace DengueCalendario

/-- The reference week-number list from `dengue_calendario.py` (lines 107-110):
`for semana in range(54): numero_semana.extend([semana for _ in range(7)])`,
i.e. each week index `0..53` repeated 7 times consecutively. -/
def numero_semana : List ℕ :=
  (List.range 54).flatMap (fun semana => List.replicate 7 semana)

/-- One cell of the calendar heatmap: the `dayofweek`, `semana` and `total`
columns of the `final` DataFrame for one calendar day. -/
structure GridCell where
  dayofweek : ℕ
  semana : ℕ
  total : ℚ
deriving DecidableEq

/-- Failure modes of the grid mapper, named as in the specification. -/
inductive MapError where
  | invalidRange
  | rangeTooLong
deriving DecidableEq

/-- Modelled from the spec: the contiguity validation behind
`InvalidRangeError` (the Python source always builds its index with
`pd.date_range`, which is contiguous by construction, so the check itself
does not appear in `src/`).  A series is valid when each date is exactly the
predecessor's date plus one, which is the spec's "strictly increasing and
contiguous". -/
def contiguousB : List (ℕ × ℚ) → Bool
  | [] => true
  | [_] => true
  | a :: b :: rest => (b.1 == a.1 + 1) && contiguousB (b :: rest)

/-- `pad = final.index[0].dayofweek` (line 122): the ISO weekday of the first
date of the range. -/
def pad (days : List (ℕ × ℚ)) : ℕ := (days.headD (0, 0)).1 % 7

/-- The Python slice `numero_semana[pad : len(final) + pad]` (line 123). -/
def semanaSlice (p n : ℕ) : List ℕ := (numero_semana.drop p).take n

/-- Pair each day with its week number: the simultaneous columns
`final["dayofweek"] = final.index.dayofweek` (line 114) and
`final["semana"] = numero_semana[pad:len(final)+pad]` (line 123). -/
def buildCells : List (ℕ × ℚ) → List ℕ → List GridCell
  | d :: ds, w :: ws => ⟨d.1 % 7, w, d.2⟩ :: buildCells ds ws
  | _, _ => []

/-- The grid mapper over a `DaySeries`.  The week-number slice and the
day-of-week column are translated from lines 107-123 of
`dengue_calendario.py`.  Two failure branches are named after the spec's
errors: `invalidRange` is the spec-modelled contiguity validation (see
`contiguousB`), and `rangeTooLong` stands for the `ValueError` that pandas
raises at line 123 when the slice of the 378-entry week list is shorter than
the frame, i.e. when `len(final) + pad > 378`. -/
def dateGridMap (days : List (ℕ × ℚ)) : Except MapError (List GridCell) :=
  if contiguousB days then
    if (semanaSlice (pad days) days.length).length = days.length then
      Except.ok (buildCells days (semanaSlice (pad days) days.length))
    else
      Except.error MapError.rangeTooLong
  else
    Except.error MapError.invalidRange

/-- Indexing helper for cell lists (0-based day offset within the range). -/
def cellAt (cells : List GridCell) (i : ℕ) : GridCell := cells.getD i ⟨0, 0, 0⟩

set_option maxRecDepth 4000 in
lemma numero_semana_length : numero_semana.length = 378 := by decide

set_option maxRecDepth 100000 in
lemma numero_semana_getD : ∀ n < 378, numero_semana.getD n 0 = n / 7 := by decide

lemma semanaSlice_length (p n : ℕ) :
    (semanaSlice p n).length = min n (378 - p) := by
  simp [semanaSlice, List.length_take, List.length_drop, numero_semana_length]

lemma getD_drop (l : List ℕ) (p i : ℕ) :
    (l.drop p).getD i 0 = l.getD (p + i) 0 := by
  induction p generalizing l with
  | zero => simp
  | succ p ih =>
    cases l with
    | nil => simp
    | cons a l =>
      have harith : p + 1 + i = (p + i) + 1 := by omega
      rw [List.drop_succ_cons, harith, List.getD_cons_succ]
      exact ih l

lemma getD_take (l : List ℕ) (n i : ℕ) (h : i < n) :
    (l.take n).getD i 0 = l.getD i 0 := by
  induction l generalizing n i with
  | nil => simp
  | cons a l ih =>
    cases n with
    | zero => omega
    | succ n =>
      cases i with
      | zero => simp
      | succ i => simpa using ih n i (by omega)

lemma semanaSlice_getD (p n i : ℕ) (hi : i < n) (hr : p + i < 378) :
    (semanaSlice p n).getD i 0 = (p + i) / 7 := by
  unfold semanaSlice
  rw [getD_take _ _ _ hi, getD_drop]
  exact numero_semana_getD (p + i) hr

lemma buildCells_length (ds : List (ℕ × ℚ)) (ws : List ℕ) :
    (buildCells ds ws).length = min ds.length ws.length := by
  induction ds generalizing ws with
  | nil => simp [buildCells]
  | cons d ds ih =>
    cases ws with
    | nil => simp [buildCells]
    | cons w ws => simp [buildCells, ih, Nat.succ_min_succ]

lemma cellAt_buildCells (ds : List (ℕ × ℚ)) (ws : List ℕ) (i : ℕ)
    (hd : i < ds.length) (hw : i < ws.length) :
    cellAt (buildCells ds ws) i =
      ⟨(ds.getD i (0, 0)).1 % 7, ws.getD i 0, (ds.getD i (0, 0)).2⟩ := by
  induction ds generalizing ws i with
  | nil => simp at hd
  | cons d ds ih =>
    cases ws with
    | nil => simp at hw
    | cons w ws =>
      cases i with
      | zero => simp [buildCells, cellAt]
      | succ i =>
        have hd2 : i < ds.length := by
          simp only [List.length_cons] at hd; omega
        have hw2 : i < ws.length := by
          simp only [List.length_cons] at hw; omega
        have := ih ws i hd2 hw2
        simpa [buildCells, cellAt] using this

lemma contiguousB_dates {days : List (ℕ × ℚ)} (h : contiguousB days = true) :
    ∀ i < days.length, (days.getD i (0, 0)).1 = (days.getD 0 (0, 0)).1 + i := by
  induction days with
  | nil => intro i hi; simp at hi
  | cons a rest ih =>
    intro i hi
    cases rest with
    | nil =>
      have : i = 0 := by
        simp only [List.length_cons, List.length_nil] at hi; omega
      subst this
      simp
    | cons b rest2 =>
      have h2 : ((b.1 == a.1 + 1) && contiguousB (b :: rest2)) = true := h
      rw [Bool.and_eq_true, beq_iff_eq] at h2
      cases i with
      | zero => simp
      | succ i =>
        have hi2 : i < (b :: rest2).length := by
          simp only [List.length_cons] at hi ⊢; omega
        have := ih h2.2 i hi2
        simp only [List.getD_cons_succ]
        simp only [List.getD_cons_zero] at this ⊢
        omega

lemma contiguousB_false_of_skip {days : List (ℕ × ℚ)} {i : ℕ}
    (hi : i + 1 < days.length)
    (hne : (days.getD (i + 1) (0, 0)).1 ≠ (days.getD i (0, 0)).1 + 1) :
    contiguousB days = false := by
  induction days generalizing i with
  | nil => simp at hi
  | cons a rest ih =>
    cases rest with
    | nil => simp at hi
    | cons b rest2 =>
      show ((b.1 == a.1 + 1) && contiguousB (b :: rest2)) = false
      cases i with
      | zero =>
        simp only [List.getD_cons_succ, List.getD_cons_zero] at hne
        simp [beq_eq_false_iff_ne, hne]
      | succ i =>
        have hi2 : i + 1 < (b :: rest2).length := by
          simp only [List.length_cons] at hi ⊢; omega
        have hne2 :
            ((b :: rest2).getD (i + 1) (0, 0)).1 ≠ ((b :: rest2).getD i (0, 0)).1 + 1 := by
          simpa using hne
        have := ih hi2 hne2
        simp [this]

lemma dateGridMap_ok_iff (days : List (ℕ × ℚ)) (cells : List GridCell) :
    dateGridMap days = Except.ok cells ↔
      contiguousB days = true ∧ days.length + pad days ≤ 378 ∧
        cells = buildCells days (semanaSlice (pad days) days.length) := by
  have hpad : pad days < 7 := Nat.mod_lt _ (by norm_num)
  have hlen : (semanaSlice (pad days) days.length).length =
      min days.length (378 - pad days) := semanaSlice_length _ _
  unfold dateGridMap
  by_cases hc : contiguousB days = true
  · rw [if_pos hc]
    by_cases hfit : days.length + pad days ≤ 378
    · have heq : (semanaSlice (pad days) days.length).length = days.length := by omega
      rw [if_pos heq]
      constructor
      · intro h
        exact ⟨hc, hfit, (Except.ok.inj h).symm⟩
      · rintro ⟨-, -, rfl⟩
        rfl
    · have hne : ¬(semanaSlice (pad days) days.length).length = days.length := by omega
      rw [if_neg hne]
      constructor
      · intro h
        exact absurd h (by simp)
      · rintro ⟨-, hf, -⟩
        exact absurd hf hfit
  · rw [if_neg hc]
    constructor
    · intro h
      exact absurd h (by simp)
    · rintro ⟨hc2, -, -⟩
      exact absurd hc2 hc

lemma dateGridMap_cellAt {days : List (ℕ × ℚ)} {cells : List GridCell}
    (hok : dateGridMap days = Except.ok cells) {i : ℕ} (hi : i < days.length) :
    cellAt cells i =
      ⟨((days.getD 0 (0, 0)).1 + i) % 7, (pad days + i) / 7, (days.getD i (0, 0)).2⟩ := by
  obtain ⟨hc, hfit, rfl⟩ := (dateGridMap_ok_iff days cells).mp hok
  have hpad : pad days < 7 := Nat.mod_lt _ (by norm_num)
  have hw : i < (semanaSlice (pad days) days.length).length := by
    rw [semanaSlice_length]; omega
  rw [cellAt_buildCells days _ i hi hw,
      semanaSlice_getD _ _ _ hi (by omega),
      contiguousB_dates hc i hi]

lemma dateGridMap_length {days : List (ℕ × ℚ)} {cells : List GridCell}
    (hok : dateGridMap days = Except.ok cells) : cells.length = days.length := by
  obtain ⟨hc, hfit, rfl⟩ := (dateGridMap_ok_iff days cells).mp hok
  have hpad : pad days < 7 := Nat.mod_lt _ (by norm_num)
  rw [buildCells_length, semanaSlice_length]
  omega

lemma pad_add_eq (days : List (ℕ × ℚ)) (i : ℕ) :
    ((days.getD 0 (0, 0)).1 + i) % 7 = (pad days + i) % 7 := by
  have : pad days = (days.getD 0 (0, 0)).1 % 7 := by
    unfold pad
    cases days <;> simp
  rw [this]
  omega

/-- `valor_min = final["total"].min()` (line 81): the minimum of the values. -/
def valor_min : List ℚ → ℚ
  | [] => 0
  | v :: rest => rest.foldl min v

/-- The interpolation rank `0.95 * (n - 1)` used by pandas'
`Series.quantile(0.95)` on a series of length `n`. -/
def qRank (n : ℕ) : ℚ := (95 / 100) * ((n : ℚ) - 1)

/-- `valor_max = final["total"].quantile(0.95)` (line 82): pandas' default
linear interpolation between the order statistics at the floor and the
ceiling of the rank `0.95 * (n - 1)` over the sorted values. -/
def quantile95 (values : List ℚ) : ℚ :=
  (values.insertionSort (· ≤ ·)).getD (⌊qRank values.length⌋.toNat) 0 +
    (qRank values.length - (⌊qRank values.length⌋.toNat : ℚ)) *
      ((values.insertionSort (· ≤ ·)).getD (⌈qRank values.length⌉.toNat) 0 -
        (values.insertionSort (· ≤ ·)).getD (⌊qRank values.length⌋.toNat) 0)

/-- `np.linspace(valor_min, valor_max, n)` (line 85): `n` evenly spaced
samples from `a` to `b`, both endpoints included. -/
def linspace (a b : ℚ) (n : ℕ) : List ℚ :=
  (List.range n).map (fun (i : ℕ) => a + (b - a) * (i : ℚ) / ((n : ℚ) - 1))

/-- Round half to even: the rounding used by Python's `f"{x:,.0f}"`. -/
def roundHalfEven (x : ℚ) : ℤ :=
  if x - (⌊x⌋ : ℚ) < 1 / 2 then ⌊x⌋
  else if (1 : ℚ) / 2 < x - (⌊x⌋ : ℚ) then ⌊x⌋ + 1
  else if ⌊x⌋ % 2 = 0 then ⌊x⌋ else ⌊x⌋ + 1

/-- Insert a thousands separator after every third digit; the digit list is
given least-significant first. -/
def commaDigitsAux : List Char → ℕ → List Char
  | [], _ => []
  | c :: rest, k =>
    if 0 < k ∧ k % 3 = 0 then ',' :: c :: commaDigitsAux rest (k + 1)
    else c :: commaDigitsAux rest (k + 1)

/-- Python's `f"{x:,.0f}"` (line 89): round to an integer and group the
digits in threes with commas. -/
def commaFmt (x : ℚ) : String :=
  if roundHalfEven x < 0 then
    String.mk ('-' :: (commaDigitsAux (Nat.toDigits 10 (roundHalfEven x).natAbs).reverse 0).reverse)
  else
    String.mk (commaDigitsAux (Nat.toDigits 10 (roundHalfEven x).natAbs).reverse 0).reverse

/-- `etiquetas[-1] = f"≥{etiquetas[-1]}"` (line 92): mark the last label as an
open-ended upper bucket. -/
def prefixLast : List String → List String
  | [] => []
  | [s] => ["≥" ++ s]
  | s :: t :: rest => s :: prefixLast (t :: rest)

/-- The legend scale assembled at lines 81-92: minimum, 95th-percentile
maximum, tick positions (`marcas`) and tick labels (`etiquetas`). -/
structure Scale where
  min_value : ℚ
  max_value : ℚ
  marcas : List ℚ
  etiquetas : List String
deriving DecidableEq

/-- Lines 81-92 of `dengue_calendario.py`; the same construction recurs with
11 ticks in `dengue_estatal.py` (lines 126-138) and 13 ticks in
`dengue_municipal.py` (lines 84-97), so the tick count is a parameter. -/
def scaleBinner (values : List ℚ) (tick_count : ℕ) : Scale :=
  { min_value := valor_min values
    max_value := quantile95 values
    marcas := linspace (valor_min values) (quantile95 values) tick_count
    etiquetas :=
      prefixLast ((linspace (valor_min values) (quantile95 values) tick_count).map commaFmt) }

/-- The scan behind `final["total"].max()` and `final["total"].idxmax()`
(line 129): a single pass keeping the running maximum and the date where it
was first attained (pandas' `idxmax` returns the first index of the
maximum). -/
def idxmaxAux : ℕ → ℚ → List (ℕ × ℚ) → ℕ × ℚ
  | d, m, [] => (d, m)
  | d, m, e :: rest => if m < e.2 then idxmaxAux e.1 e.2 rest else idxmaxAux d m rest

/-- The summary row rendered under the calendar. -/
structure Stats where
  max_value : ℚ
  max_date : ℕ
  total : ℚ
  mean : ℚ
deriving DecidableEq

/-- Lines 129-132 of `dengue_calendario.py`: the day with most records and
its value (`max` / `idxmax`), the annual total `final["total"].sum()`, and
the daily mean `final["total"].sum() / len(final)` — the denominator is the
full calendar span, zero-valued days included. -/
def summarize : List (ℕ × ℚ) → Stats
  | [] => ⟨0, 0, 0, 0⟩
  | e :: rest =>
    ⟨(idxmaxAux e.1 e.2 rest).2, (idxmaxAux e.1 e.2 rest).1,
      ((e :: rest).map Prod.snd).sum,
      ((e :: rest).map Prod.snd).sum / (((e :: rest).length : ℕ) : ℚ)⟩

lemma foldl_min_le_init (l : List ℚ) (a : ℚ) : l.foldl min a ≤ a := by
  induction l generalizing a with
  | nil => simp
  | cons b l ih => exact le_trans (ih (min a b)) (min_le_left a b)

lemma foldl_min_le_mem {l : List ℚ} {x : ℚ} (hx : x ∈ l) (a : ℚ) :
    l.foldl min a ≤ x := by
  induction l generalizing a with
  | nil => simp at hx
  | cons b l ih =>
    rcases List.mem_cons.mp hx with h | h
    · subst h
      exact le_trans (foldl_min_le_init l (min a x)) (min_le_right a x)
    · exact ih h (min a b)

lemma valor_min_le {values : List ℚ} {x : ℚ} (hx : x ∈ values) :
    valor_min values ≤ x := by
  cases values with
  | nil => simp at hx
  | cons v rest =>
    rcases List.mem_cons.mp hx with h | h
    · subst h
      exact foldl_min_le_init rest x
    · exact foldl_min_le_mem h v

lemma foldl_min_mem (l : List ℚ) (a : ℚ) : l.foldl min a = a ∨ l.foldl min a ∈ l := by
  induction l generalizing a with
  | nil => simp
  | cons b l ih =>
    rcases ih (min a b) with h | h
    · rcases min_choice a b with h2 | h2
      · left
        show l.foldl min (min a b) = a
        rw [h, h2]
      · right
        rw [List.mem_cons]
        left
        show l.foldl min (min a b) = b
        rw [h, h2]
    · right
      exact List.mem_cons_of_mem b h

lemma valor_min_mem {values : List ℚ} (h : values ≠ []) : valor_min values ∈ values := by
  cases values with
  | nil => exact absurd rfl h
  | cons v rest =>
    rcases foldl_min_mem rest v with h2 | h2
    · rw [show valor_min (v :: rest) = rest.foldl min v from rfl, h2]
      exact List.mem_cons_self v rest
    · exact List.mem_cons_of_mem v h2

/-- The interpolated 95th percentile lies between two members of the list
(its bracketing order statistics). -/
lemma quantile95_spec {values : List ℚ} (hne : values ≠ []) :
    ∃ a b, a ∈ values ∧ b ∈ values ∧ a ≤ b ∧
      a ≤ quantile95 values ∧ quantile95 values ≤ b := by
  have hperm : List.Perm (values.insertionSort (· ≤ ·)) values := List.perm_insertionSort _ _
  have hlen : (values.insertionSort (· ≤ ·)).length = values.length := hperm.length_eq
  have hn : 1 ≤ values.length := List.length_pos.mpr hne
  have hn1 : (1 : ℚ) ≤ (values.length : ℚ) := by exact_mod_cast hn
  have hq0 : 0 ≤ qRank values.length := by
    unfold qRank
    nlinarith
  have hqle : qRank values.length ≤ (values.length : ℚ) - 1 := by
    unfold qRank
    nlinarith
  have hfl0 : 0 ≤ ⌊qRank values.length⌋ := Int.floor_nonneg.mpr hq0
  have hlocast : ((⌊qRank values.length⌋.toNat : ℕ) : ℚ) = ((⌊qRank values.length⌋ : ℤ) : ℚ) := by
    exact_mod_cast Int.toNat_of_nonneg hfl0
  have hlo_le_rank : ((⌊qRank values.length⌋.toNat : ℕ) : ℚ) ≤ qRank values.length := by
    rw [hlocast]
    exact Int.floor_le _
  have hrank_lt : qRank values.length < ((⌊qRank values.length⌋.toNat : ℕ) : ℚ) + 1 := by
    rw [hlocast]
    exact Int.lt_floor_add_one _
  have hceil_le : ⌈qRank values.length⌉ ≤ (values.length : ℤ) - 1 := by
    rw [Int.ceil_le]
    push_cast
    linarith
  have hhi_lt : ⌈qRank values.length⌉.toNat < (values.insertionSort (· ≤ ·)).length := by
    rw [hlen]
    omega
  have hfc : ⌊qRank values.length⌋ ≤ ⌈qRank values.length⌉ := Int.floor_le_ceil _
  have hlo_lt : ⌊qRank values.length⌋.toNat < (values.insertionSort (· ≤ ·)).length := by
    rw [hlen] at hhi_lt ⊢
    omega
  have hsorted : List.Sorted (· ≤ ·) (values.insertionSort (· ≤ ·)) :=
    List.sorted_insertionSort _ _
  have hab : (values.insertionSort (· ≤ ·)).getD (⌊qRank values.length⌋.toNat) 0 ≤
      (values.insertionSort (· ≤ ·)).getD (⌈qRank values.length⌉.toNat) 0 := by
    rw [List.getD_eq_get _ _ hlo_lt, List.getD_eq_get _ _ hhi_lt]
    exact hsorted.rel_get_of_le (Fin.mk_le_mk.mpr (by omega))
  have hamem : (values.insertionSort (· ≤ ·)).getD (⌊qRank values.length⌋.toNat) 0 ∈ values := by
    rw [List.getD_eq_get _ _ hlo_lt]
    exact hperm.mem_iff.mp (List.get_mem _ _ _)
  have hbmem : (values.insertionSort (· ≤ ·)).getD (⌈qRank values.length⌉.toNat) 0 ∈ values := by
    rw [List.getD_eq_get _ _ hhi_lt]
    exact hperm.mem_iff.mp (List.get_mem _ _ _)
  refine ⟨(values.insertionSort (· ≤ ·)).getD (⌊qRank values.length⌋.toNat) 0,
    (values.insertionSort (· ≤ ·)).getD (⌈qRank values.length⌉.toNat) 0,
    hamem, hbmem, hab, ?_, ?_⟩
  · unfold quantile95
    nlinarith
  · unfold quantile95
    nlinarith

lemma valor_min_le_quantile95 {values : List ℚ} (hne : values ≠ []) :
    valor_min values ≤ quantile95 values := by
  obtain ⟨a, b, ha, hb, hab, hq1, hq2⟩ := quantile95_spec hne
  exact le_trans (valor_min_le ha) hq1

lemma valor_min_const {values : List ℚ} {c : ℚ} (hne : values ≠ [])
    (hall : ∀ x ∈ values, x = c) : valor_min values = c := by
  have h1 := valor_min_mem hne
  exact hall _ h1

lemma quantile95_const {values : List ℚ} {c : ℚ} (hne : values ≠ [])
    (hall : ∀ x ∈ values, x = c) : quantile95 values = c := by
  obtain ⟨a, b, ha, hb, hab, hq1, hq2⟩ := quantile95_spec hne
  rw [hall a ha] at hq1
  rw [hall b hb] at hq2
  linarith

lemma linspace_length (a b : ℚ) (n : ℕ) : (linspace a b n).length = n := by
  simp [linspace]

lemma linspace_getD (a b : ℚ) {n i : ℕ} (hi : i < n) :
    (linspace a b n).getD i 0 = a + (b - a) * (i : ℚ) / ((n : ℚ) - 1) := by
  unfold linspace
  rw [List.getD_eq_getD_get?, List.get?_map, List.get?_range hi]
  rfl

lemma linspace_mono {a b : ℚ} (hab : a ≤ b) {n i : ℕ} (hi : i + 1 < n) :
    (linspace a b n).getD i 0 ≤ (linspace a b n).getD (i + 1) 0 := by
  rw [linspace_getD a b (by omega : i < n), linspace_getD a b hi]
  have h2 : (2 : ℚ) ≤ (n : ℚ) := by
    have : 2 ≤ n := by omega
    exact_mod_cast this
  have hpos : (0 : ℚ) < (n : ℚ) - 1 := by linarith
  have hstep : (b - a) * (i : ℚ) ≤ (b - a) * ((i : ℚ) + 1) := by nlinarith
  have := (div_le_div_iff_of_pos_right hpos).mpr hstep
  push_cast
  linarith

lemma linspace_first {a b : ℚ} {n : ℕ} (hn : 0 < n) : (linspace a b n).getD 0 0 = a := by
  rw [linspace_getD a b hn]
  simp

lemma linspace_last {a b : ℚ} {n : ℕ} (hn : 2 ≤ n) :
    (linspace a b n).getD (n - 1) 0 = b := by
  rw [linspace_getD a b (by omega : n - 1 < n)]
  have h1 : (1 : ℕ) ≤ n := by omega
  have hcast : ((n - 1 : ℕ) : ℚ) = (n : ℚ) - 1 := by
    push_cast [h1]
    ring
  have hne : (n : ℚ) - 1 ≠ 0 := by
    have : (2 : ℚ) ≤ (n : ℚ) := by exact_mod_cast hn
    intro h
    linarith
  rw [hcast, mul_div_assoc, div_self hne, mul_one]
  ring

lemma linspace_const (c : ℚ) (n : ℕ) : ∀ t ∈ linspace c c n, t = c := by
  intro t ht
  unfold linspace at ht
  obtain ⟨i, hi, rfl⟩ := List.mem_map.mp ht
  simp

lemma prefixLast_length : ∀ l : List String, (prefixLast l).length = l.length
  | [] => rfl
  | [_] => rfl
  | _ :: t :: rest => by
    show (prefixLast (t :: rest)).length + 1 = _
    rw [prefixLast_length (t :: rest)]
    rfl

lemma prefixLast_getD_last :
    ∀ l : List String, l ≠ [] →
      (prefixLast l).getD (l.length - 1) "" = "≥" ++ l.getD (l.length - 1) ""
  | [], h => absurd rfl h
  | [s], _ => rfl
  | s :: t :: rest, _ => by
    have ih := prefixLast_getD_last (t :: rest) (by simp)
    show (s :: prefixLast (t :: rest)).getD ((t :: rest).length + 1 - 1) "" = _
    have hlen : (t :: rest).length + 1 - 1 = rest.length + 1 := by simp
    rw [hlen]
    simp only [List.getD_cons_succ]
    simpa using ih

lemma idxmaxAux_le : ∀ (l : List (ℕ × ℚ)) (d : ℕ) (m : ℚ), m ≤ (idxmaxAux d m l).2
  | [], _, m => le_refl m
  | e :: rest, d, m => by
    show m ≤ (if m < e.2 then idxmaxAux e.1 e.2 rest else idxmaxAux d m rest).2
    by_cases h : m < e.2
    · rw [if_pos h]
      exact le_trans (le_of_lt h) (idxmaxAux_le rest e.1 e.2)
    · rw [if_neg h]
      exact idxmaxAux_le rest d m

lemma idxmaxAux_ub : ∀ (l : List (ℕ × ℚ)) (d : ℕ) (m : ℚ),
    ∀ e ∈ l, e.2 ≤ (idxmaxAux d m l).2
  | [], _, _ => by
    intro e he
    simp at he
  | f :: rest, d, m => by
    intro e he
    show e.2 ≤ (if m < f.2 then idxmaxAux f.1 f.2 rest else idxmaxAux d m rest).2
    rcases List.mem_cons.mp he with h | h
    · subst h
      by_cases hm : m < e.2
      · rw [if_pos hm]
        exact idxmaxAux_le rest e.1 e.2
      · rw [if_neg hm]
        exact le_trans (le_of_not_lt hm) (idxmaxAux_le rest d m)
    · by_cases hm : m < f.2
      · rw [if_pos hm]
        exact idxmaxAux_ub rest f.1 f.2 e h
      · rw [if_neg hm]
        exact idxmaxAux_ub rest d m e h

/-- The scan either keeps its accumulator, or lands on the first list entry
that strictly exceeds everything before it. -/
lemma idxmaxAux_first : ∀ (l : List (ℕ × ℚ)) (d : ℕ) (m : ℚ),
    idxmaxAux d m l = (d, m) ∨
      ∃ k, k < l.length ∧ l.getD k (0, 0) = idxmaxAux d m l ∧
        m < (idxmaxAux d m l).2 ∧
        ∀ j < k, (l.getD j (0, 0)).2 < (idxmaxAux d m l).2
  | [], _, _ => Or.inl rfl
  | e :: rest, d, m => by
    by_cases hm : m < e.2
    · have hrw : idxmaxAux d m (e :: rest) = idxmaxAux e.1 e.2 rest := by
        show (if m < e.2 then idxmaxAux e.1 e.2 rest else idxmaxAux d m rest) = _
        rw [if_pos hm]
      rcases idxmaxAux_first rest e.1 e.2 with h | ⟨k, hk, hget, hlt, hprev⟩
      · right
        refine ⟨0, by simp, ?_, ?_, ?_⟩
        · rw [hrw, h]
          simp
        · rw [hrw, h]
          exact hm
        · intro j hj
          omega
      · right
        refine ⟨k + 1, by simp only [List.length_cons]; omega, ?_, ?_, ?_⟩
        · rw [hrw]
          simpa using hget
        · rw [hrw]
          exact lt_trans hm hlt
        · intro j hj
          rw [hrw]
          cases j with
          | zero =>
            show e.2 < (idxmaxAux e.1 e.2 rest).2
            exact hlt
          | succ j =>
            have := hprev j (by omega)
            simpa using this
    · have hrw : idxmaxAux d m (e :: rest) = idxmaxAux d m rest := by
        show (if m < e.2 then idxmaxAux e.1 e.2 rest else idxmaxAux d m rest) = _
        rw [if_neg hm]
      rcases idxmaxAux_first rest d m with h | ⟨k, hk, hget, hlt, hprev⟩
      · left
        rw [hrw, h]
      · right
        refine ⟨k + 1, by simp only [List.length_cons]; omega, ?_, ?_, ?_⟩
        · rw [hrw]
          simpa using hget
        · rw [hrw]
          exact hlt
        · intro j hj
          rw [hrw]
          cases j with
          | zero =>
            show e.2 < (idxmaxAux d m rest).2
            exact lt_of_le_of_lt (le_of_not_lt hm) hlt
          | succ j =>
            have := hprev j (by omega)
            simpa using this

/-- Concrete day series used to exercise the theorems below. -/
def diasLunes : List (ℕ × ℚ) := (List.range 10).map (fun (i : ℕ) => ((i : ℕ), (0 : ℚ)))

def diasAnno : List (ℕ × ℚ) := (List.range 365).map (fun (i : ℕ) => ((i : ℕ), (0 : ℚ)))

def dias400 : List (ℕ × ℚ) := (List.range 400).map (fun (i : ℕ) => ((i : ℕ), (0 : ℚ)))

def vals101 : List ℚ := (List.range 101).map (fun (i : ℕ) => (i : ℚ))

def diasSalto : List (ℕ × ℚ) := [(0, 0), (1, 0), (3, 0)]

/-- Eight consecutive days starting on a Sunday (day number 6). -/
def exDomingo : List (ℕ × ℚ) := (List.range 8).map (fun (i : ℕ) => (i + 6, (0 : ℚ)))

def diasC10 : List (ℕ × ℚ) := (List.range 10).map (fun (i : ℕ) => (i + 14, (0 : ℚ)))

/-- C1: for a contiguous DaySeries accepted by the mapper, the week index of
the day at offset `i` is position `pad + i` of the reference sequence, i.e.
`(pad + i) / 7`; for `pad = 0` it is `i / 7`, and for `pad = 6` the first
day alone has week index 0 while the second day already starts week 1. -/
theorem C1_week_index_formula (days : List (ℕ × ℚ)) (cells : List GridCell)
    (hok : dateGridMap days = Except.ok cells) (i : ℕ) (hi : i < days.length) :
    (cellAt cells i).semana = (pad days + i) / 7 ∧
    (pad days = 0 → (cellAt cells i).semana = i / 7) ∧
    (pad days = 6 → (cellAt cells 0).semana = 0 ∧
      (1 < days.length → (cellAt cells 1).semana = 1)) := by
  have h1 : (cellAt cells i).semana = (pad days + i) / 7 := by
    rw [dateGridMap_cellAt hok hi]
  refine ⟨h1, ?_, ?_⟩
  · intro hp
    rw [h1, hp]
    omega
  · intro hp
    constructor
    · rw [dateGridMap_cellAt hok (by omega : 0 < days.length)]
      show (pad days + 0) / 7 = 0
      omega
    · intro h2
      rw [dateGridMap_cellAt hok h2]
      show (pad days + 1) / 7 = 1
      omega

set_option maxRecDepth 8000 in
/-- C1 witness: a 10-day range starting on a Monday has week index `3 / 7 = 0`
at offset 3. -/
theorem C1_week_index_formula_witness :
    3 < diasLunes.length ∧ pad diasLunes = 0 ∧
    (cellAt (buildCells diasLunes (semanaSlice (pad diasLunes) diasLunes.length)) 3).semana =
      3 / 7 :=
  ⟨by decide, by decide,
    (C1_week_index_formula diasLunes _
      ((dateGridMap_ok_iff _ _).mpr ⟨by decide, by decide, rfl⟩) 3 (by decide)).2.1 (by decide)⟩

/-- C2: a contiguous full-calendar-year series (365 or 366 days) yields one
cell per day, non-decreasing week indices, weekdays cycling mod 7, and week
indices all at most 53, hence at most 54 distinct week-index values. -/
theorem C2_full_year_invariants (days : List (ℕ × ℚ)) (cells : List GridCell)
    (hlen : days.length = 365 ∨ days.length = 366)
    (hok : dateGridMap days = Except.ok cells) :
    cells.length = days.length ∧
    (∀ i j, i ≤ j → j < days.length →
      (cellAt cells i).semana ≤ (cellAt cells j).semana) ∧
    (∀ i, i < days.length → (cellAt cells i).dayofweek < 7) ∧
    (∀ i, i + 1 < days.length →
      (cellAt cells (i + 1)).dayofweek = ((cellAt cells i).dayofweek + 1) % 7) ∧
    (∀ c ∈ cells, c.semana ≤ 53) ∧
    (cells.map GridCell.semana).toFinset.card ≤ 54 := by
  have hpad : pad days < 7 := Nat.mod_lt _ (by norm_num)
  have hclen := dateGridMap_length hok
  have hsem : ∀ i, i < days.length → (cellAt cells i).semana = (pad days + i) / 7 := by
    intro i hi
    rw [dateGridMap_cellAt hok hi]
  have hdow : ∀ i, i < days.length →
      (cellAt cells i).dayofweek = ((days.getD 0 (0, 0)).1 + i) % 7 := by
    intro i hi
    rw [dateGridMap_cellAt hok hi]
  have hbound : ∀ c ∈ cells, c.semana ≤ 53 := by
    intro c hc
    obtain ⟨⟨k, hk⟩, rfl⟩ := List.mem_iff_get.mp hc
    have hk2 : k < days.length := by omega
    have : cellAt cells k = cells.get ⟨k, hk⟩ := List.getD_eq_get _ _ hk
    rw [← this, hsem k hk2]
    omega
  refine ⟨hclen, ?_, ?_, ?_, hbound, ?_⟩
  · intro i j hij hj
    rw [hsem i (by omega), hsem j hj]
    exact Nat.div_le_div_right (by omega)
  · intro i hi
    rw [hdow i hi]
    exact Nat.mod_lt _ (by norm_num)
  · intro i hi
    rw [hdow i (by omega), hdow (i + 1) hi]
    omega
  · have hsub : (cells.map GridCell.semana).toFinset ⊆ Finset.range 54 := by
      intro x hx
      rw [List.mem_toFinset] at hx
      obtain ⟨c, hc, rfl⟩ := List.mem_map.mp hx
      rw [Finset.mem_range]
      have := hbound c hc
      omega
    calc (cells.map GridCell.semana).toFinset.card
        ≤ (Finset.range 54).card := Finset.card_le_card hsub
      _ = 54 := Finset.card_range 54

set_option maxRecDepth 40000 in
/-- C2 witness: a concrete contiguous 365-day year is mapped to exactly 365
cells. -/
theorem C2_full_year_invariants_witness :
    (diasAnno.length = 365 ∨ diasAnno.length = 366) ∧
    (buildCells diasAnno (semanaSlice (pad diasAnno) diasAnno.length)).length =
      diasAnno.length :=
  ⟨Or.inl (by decide),
    (C2_full_year_invariants diasAnno _ (Or.inl (by decide))
      ((dateGridMap_ok_iff _ _).mpr ⟨by decide, by decide, rfl⟩)).1⟩

/-- C3: every contiguous range of more than 378 days makes the mapper fail
with `RangeTooLongError` — the 54×7 week list cannot cover it. -/
theorem C3_range_too_long (days : List (ℕ × ℚ))
    (hc : contiguousB days = true) (hlen : 378 < days.length) :
    dateGridMap days = Except.error MapError.rangeTooLong := by
  have hpad : pad days < 7 := Nat.mod_lt _ (by norm_num)
  have hlen2 : (semanaSlice (pad days) days.length).length =
      min days.length (378 - pad days) := semanaSlice_length _ _
  unfold dateGridMap
  rw [if_pos hc, if_neg (by omega)]

set_option maxRecDepth 40000 in
/-- C3 witness: 400 consecutive days raise `RangeTooLongError`. -/
theorem C3_range_too_long_witness :
    contiguousB dias400 = true ∧ 378 < dias400.length ∧
      dateGridMap dias400 = Except.error MapError.rangeTooLong :=
  ⟨by decide, by decide, C3_range_too_long dias400 (by decide) (by decide)⟩

/-- C4: for a non-empty input and `tick_count ≥ 2`, the scale has exactly
`tick_count` tick values, non-decreasing and evenly spaced inclusively from
the minimum of the input to its 95th percentile, and the final label is
prefixed with the `≥` marker. -/
theorem C4_scale_structure (values : List ℚ) (tick_count : ℕ)
    (hne : values ≠ []) (htc : 2 ≤ tick_count) :
    (scaleBinner values tick_count).marcas.length = tick_count ∧
    (∀ x ∈ values, (scaleBinner values tick_count).min_value ≤ x) ∧
    (scaleBinner values tick_count).min_value ∈ values ∧
    (∀ i, i + 1 < tick_count →
      (scaleBinner values tick_count).marcas.getD i 0 ≤
        (scaleBinner values tick_count).marcas.getD (i + 1) 0) ∧
    (∀ i, i < tick_count →
      (scaleBinner values tick_count).marcas.getD i 0 =
        (scaleBinner values tick_count).min_value +
          ((scaleBinner values tick_count).max_value -
              (scaleBinner values tick_count).min_value) * (i : ℚ) /
            ((tick_count : ℚ) - 1)) ∧
    (scaleBinner values tick_count).marcas.getD 0 0 =
      (scaleBinner values tick_count).min_value ∧
    (scaleBinner values tick_count).marcas.getD (tick_count - 1) 0 =
      (scaleBinner values tick_count).max_value ∧
    (scaleBinner values tick_count).etiquetas.getD (tick_count - 1) "" =
      "≥" ++ ((scaleBinner values tick_count).marcas.map commaFmt).getD (tick_count - 1) "" := by
  have hq := valor_min_le_quantile95 hne
  refine ⟨linspace_length _ _ _, ?_, valor_min_mem hne, ?_, ?_, ?_, ?_, ?_⟩
  · intro x hx
    exact valor_min_le hx
  · intro i hi
    exact linspace_mono hq hi
  · intro i hi
    exact linspace_getD _ _ hi
  · exact linspace_first (by omega)
  · exact linspace_last htc
  · show (prefixLast ((linspace (valor_min values) (quantile95 values) tick_count).map commaFmt)).getD
        (tick_count - 1) "" = _
    have hmlen : ((linspace (valor_min values) (quantile95 values) tick_count).map commaFmt).length
        = tick_count := by
      rw [List.length_map, linspace_length]
    have hne2 : (linspace (valor_min values) (quantile95 values) tick_count).map commaFmt ≠ [] := by
      intro h
      rw [h] at hmlen
      simp at hmlen
      omega
    have := prefixLast_getD_last _ hne2
    rw [hmlen] at this
    exact this

/-- C4 witness at `values = [1, 2]`, `tick_count = 2`. -/
theorem C4_scale_structure_witness :
    (([1, 2] : List ℚ) ≠ []) ∧ 2 ≤ 2 ∧ (scaleBinner [1, 2] 2).marcas.length = 2 :=
  ⟨by decide, by decide, (C4_scale_structure [1, 2] 2 (by decide) (by decide)).1⟩

lemma linspace_strict {a b : ℚ} (hab : a < b) {n i : ℕ} (hi : i + 1 < n) :
    (linspace a b n).getD i 0 < (linspace a b n).getD (i + 1) 0 := by
  rw [linspace_getD a b (by omega : i < n), linspace_getD a b hi]
  have h2 : (2 : ℚ) ≤ (n : ℚ) := by
    have : 2 ≤ n := by omega
    exact_mod_cast this
  have hpos : (0 : ℚ) < (n : ℚ) - 1 := by linarith
  have hstep : (b - a) * (i : ℚ) < (b - a) * ((i : ℚ) + 1) := by nlinarith
  have := (div_lt_div_iff_of_pos_right hpos).mpr hstep
  push_cast
  linarith

lemma getD_map_commaFmt (l : List ℚ) (i : ℕ) (hi : i < l.length) :
    (l.map commaFmt).getD i "" = commaFmt (l.getD i 0) := by
  have hi2 : i < (l.map commaFmt).length := by
    rw [List.length_map]
    exact hi
  rw [List.getD_eq_getElem _ _ hi2, List.getD_eq_getElem _ _ hi, List.getElem_map]

lemma vals101_length : vals101.length = 101 := by
  simp [vals101]

lemma vals101_ne_nil : vals101 ≠ [] := by
  intro h
  have h2 := vals101_length
  rw [h] at h2
  simp at h2

lemma vals101_sorted : List.Sorted (· ≤ ·) vals101 := by
  unfold vals101
  rw [List.Sorted, List.pairwise_map]
  exact (List.sorted_le_range 101).imp (fun h => by exact_mod_cast h)

lemma vals101_getD (i : ℕ) (hi : i < 101) : vals101.getD i 0 = (i : ℚ) := by
  unfold vals101
  rw [List.getD_eq_getD_get?, List.get?_map, List.get?_range hi]
  rfl

lemma vals101_sort_eq : vals101.insertionSort (· ≤ ·) = vals101 :=
  vals101_sorted.insertionSort_eq

lemma valor_min_vals101 : valor_min vals101 = 0 := by
  have h0 : (0 : ℚ) ∈ vals101 := by
    unfold vals101
    exact List.mem_map.mpr ⟨0, by simp, by norm_num⟩
  have h1 : valor_min vals101 ≤ 0 := valor_min_le h0
  have h2 : ∀ x ∈ vals101, (0 : ℚ) ≤ x := by
    intro x hx
    unfold vals101 at hx
    obtain ⟨j, hj, rfl⟩ := List.mem_map.mp hx
    positivity
  have h3 := h2 _ (valor_min_mem vals101_ne_nil)
  linarith

lemma qRank_101 : qRank 101 = 95 := by
  unfold qRank
  norm_num

lemma quantile95_vals101 : quantile95 vals101 = 95 := by
  unfold quantile95
  rw [vals101_sort_eq, vals101_length, qRank_101]
  rw [show ⌊(95 : ℚ)⌋ = (95 : ℤ) by simp]
  rw [show ⌈(95 : ℚ)⌉ = (95 : ℤ) by simp]
  rw [show ((95 : ℤ).toNat) = (95 : ℕ) by decide]
  rw [vals101_getD 95 (by norm_num)]
  norm_num

lemma roundHalfEven_95 : roundHalfEven (95 : ℚ) = 95 := by
  unfold roundHalfEven
  rw [show ⌊(95 : ℚ)⌋ = (95 : ℤ) by simp]
  norm_num

lemma commaFmt_95 : commaFmt (95 : ℚ) = "95" := by
  unfold commaFmt
  rw [roundHalfEven_95]
  decide

/-- C5 counterexample: on `[0,1,…,100]` the interpolation rank is
`0.95 · (101 - 1) = 95`, which lands exactly on an order statistic, so
`max_value` is exactly 95 — not ≈95.05 as the claim states. -/
theorem C5_percentile_counterexample :
    (scaleBinner vals101 9).max_value = 95 ∧
      ¬((scaleBinner vals101 9).max_value = 95.05) := by
  have h : (scaleBinner vals101 9).max_value = quantile95 vals101 := rfl
  rw [h, quantile95_vals101]
  norm_num

/-- C5 amended: on `[0,1,…,100]` with `tick_count = 9` the binner produces
exactly 9 strictly increasing tick values, the last label is `≥`-prefixed,
and `max_value` is the 95th percentile of the input, which here equals
exactly 95 (not 100 and not 95.05), computed by linear interpolation between
the order statistics at the floor and ceiling of the rank `0.95 · (n-1)`. -/
theorem C5_percentile_amended :
    (scaleBinner vals101 9).marcas.length = 9 ∧
    (∀ i < 8, (scaleBinner vals101 9).marcas.getD i 0 <
      (scaleBinner vals101 9).marcas.getD (i + 1) 0) ∧
    (scaleBinner vals101 9).max_value = 95 ∧
    (scaleBinner vals101 9).etiquetas.getD 8 "" = "≥95" := by
  have hmar : (scaleBinner vals101 9).marcas = linspace 0 95 9 := by
    show linspace (valor_min vals101) (quantile95 vals101) 9 = _
    rw [valor_min_vals101, quantile95_vals101]
  have heti : (scaleBinner vals101 9).etiquetas =
      prefixLast ((linspace (0 : ℚ) 95 9).map commaFmt) := by
    show prefixLast ((linspace (valor_min vals101) (quantile95 vals101) 9).map commaFmt) = _
    rw [valor_min_vals101, quantile95_vals101]
  refine ⟨?_, ?_, ?_, ?_⟩
  · rw [hmar, linspace_length]
  · intro i hi
    rw [hmar]
    exact linspace_strict (by norm_num) (by omega)
  · show quantile95 vals101 = 95
    exact quantile95_vals101
  · rw [heti]
    have hlen : ((linspace (0 : ℚ) 95 9).map commaFmt).length = 9 := by
      rw [List.length_map, linspace_length]
    have hmapne : (linspace (0 : ℚ) 95 9).map commaFmt ≠ [] := by
      intro hemp
      rw [hemp] at hlen
      simp at hlen
    have hpl := prefixLast_getD_last _ hmapne
    rw [hlen, show (9 : ℕ) - 1 = 8 by norm_num] at hpl
    rw [hpl, getD_map_commaFmt _ 8 (by rw [linspace_length]; norm_num)]
    rw [show (linspace (0 : ℚ) 95 9).getD 8 0 = 95 from linspace_last (by norm_num)]
    rw [commaFmt_95]
    rfl

/-- C6: the summarizer returns the maximum single-day value together with
the date where that maximum first occurs (ties broken by first occurrence in
date order), the total over the whole range, and the mean over the full
calendar span (zero-valued days included); on
`[(2023-01-01, 3), (2023-01-02, 7), (2023-01-03, 0)]` (dates as day numbers
8035-8037) it returns max 7 on 2023-01-02, total 10 and mean 10/3. -/
theorem C6_summarize_correct (days : List (ℕ × ℚ)) (hne : days ≠ []) :
    (∀ e ∈ days, e.2 ≤ (summarize days).max_value) ∧
    (∃ k, k < days.length ∧
      (days.getD k (0, 0)).1 = (summarize days).max_date ∧
      (days.getD k (0, 0)).2 = (summarize days).max_value ∧
      ∀ j < k, (days.getD j (0, 0)).2 < (summarize days).max_value) ∧
    (summarize days).total = (days.map Prod.snd).sum ∧
    (summarize days).mean = (summarize days).total / ((days.length : ℕ) : ℚ) ∧
    summarize [(8035, 3), (8036, 7), (8037, 0)] = ⟨7, 8036, 10, 10 / 3⟩ := by
  cases days with
  | nil => exact absurd rfl hne
  | cons e rest =>
    refine ⟨?_, ?_, rfl, rfl, by norm_num [summarize, idxmaxAux]⟩
    · intro x hx
      rcases List.mem_cons.mp hx with h | h
      · subst h
        exact idxmaxAux_le rest x.1 x.2
      · exact idxmaxAux_ub rest e.1 e.2 x h
    · rcases idxmaxAux_first rest e.1 e.2 with h | ⟨k, hk, hget, hlt, hprev⟩
      · refine ⟨0, by simp, ?_, ?_, ?_⟩
        · show e.1 = (idxmaxAux e.1 e.2 rest).1
          rw [h]
        · show e.2 = (idxmaxAux e.1 e.2 rest).2
          rw [h]
        · intro j hj
          omega
      · refine ⟨k + 1, by simp only [List.length_cons]; omega, ?_, ?_, ?_⟩
        · show ((e :: rest).getD (k + 1) (0, 0)).1 = _
          rw [List.getD_cons_succ, hget]
          rfl
        · show ((e :: rest).getD (k + 1) (0, 0)).2 = _
          rw [List.getD_cons_succ, hget]
          rfl
        · intro j hj
          cases j with
          | zero =>
            show e.2 < (idxmaxAux e.1 e.2 rest).2
            exact hlt
          | succ j =>
            have := hprev j (by omega)
            simpa using this

/-- C6 witness: the concrete three-day series. -/
theorem C6_summarize_correct_witness :
    (([(8035, 3), (8036, 7), (8037, 0)] : List (ℕ × ℚ)) ≠ []) ∧
    summarize [(8035, 3), (8036, 7), (8037, 0)] = ⟨7, 8036, 10, 10 / 3⟩ :=
  ⟨by decide,
    (C6_summarize_correct [(8035, 3), (8036, 7), (8037, 0)] (by decide)).2.2.2.2⟩

/-- C7 (spec-modelled validation): any series in which some next date is not
the previous date plus one — unordered or with a gap — makes the mapper fail
with `InvalidRangeError`. -/
theorem C7_invalid_range (days : List (ℕ × ℚ))
    (h : ∃ i, i + 1 < days.length ∧
      (days.getD (i + 1) (0, 0)).1 ≠ (days.getD i (0, 0)).1 + 1) :
    dateGridMap days = Except.error MapError.invalidRange := by
  obtain ⟨i, hi, hnc⟩ := h
  have hfalse := contiguousB_false_of_skip hi hnc
  unfold dateGridMap
  rw [if_neg (by simp [hfalse])]

/-- C7 witness: dates `0, 1, 3` skip the middle date 2. -/
theorem C7_invalid_range_witness :
    (1 + 1 < diasSalto.length ∧
      (diasSalto.getD 2 (0, 0)).1 ≠ (diasSalto.getD 1 (0, 0)).1 + 1) ∧
    dateGridMap diasSalto = Except.error MapError.invalidRange :=
  ⟨by decide, C7_invalid_range diasSalto ⟨1, by decide, by decide⟩⟩

/-- C8: a constant distribution is not an error: the scale degenerates to
`min_value = max_value = c` with every tick equal to `c`. -/
theorem C8_constant_scale (values : List ℚ) (c : ℚ) (tick_count : ℕ)
    (hne : values ≠ []) (hall : ∀ x ∈ values, x = c) :
    (scaleBinner values tick_count).min_value = c ∧
    (scaleBinner values tick_count).max_value = c ∧
    (∀ t ∈ (scaleBinner values tick_count).marcas, t = c) := by
  have h1 : valor_min values = c := valor_min_const hne hall
  have h2 : quantile95 values = c := quantile95_const hne hall
  refine ⟨h1, h2, ?_⟩
  show ∀ t ∈ linspace (valor_min values) (quantile95 values) tick_count, t = c
  rw [h1, h2]
  exact linspace_const c tick_count

/-- C8 witness: on `[5,5,5,5]` the scale is flat at 5. -/
theorem C8_constant_scale_witness :
    (([5, 5, 5, 5] : List ℚ) ≠ []) ∧
    (scaleBinner [5, 5, 5, 5] 9).min_value = 5 ∧
    (scaleBinner [5, 5, 5, 5] 9).max_value = 5 :=
  ⟨by decide,
    (C8_constant_scale [5, 5, 5, 5] 5 9 (by decide) (by decide)).1,
    (C8_constant_scale [5, 5, 5, 5] 5 9 (by decide) (by decide)).2.1⟩

set_option maxRecDepth 8000 in
/-- C9 counterexample: for a range starting on a Sunday (pad = 6) the mapper
succeeds and the week index already increments between offset 0 and
offset 1 — after one calendar day, not seven — refuting "the first increment
occurs only after 7 calendar days have elapsed from the first date,
regardless of which weekday the range begins on". -/
theorem C9_counterexample :
    dateGridMap exDomingo =
      Except.ok (buildCells exDomingo (semanaSlice (pad exDomingo) exDomingo.length)) ∧
    (cellAt (buildCells exDomingo (semanaSlice (pad exDomingo) exDomingo.length)) 0).semana = 0 ∧
    (cellAt (buildCells exDomingo (semanaSlice (pad exDomingo) exDomingo.length)) 1).semana = 1 ∧
    (1 : ℕ) ≠ 0 :=
  ⟨(dateGridMap_ok_iff _ _).mpr ⟨by decide, by decide, rfl⟩, by decide, by decide, by decide⟩

/-- C9 amended: week indices at offsets `i` and `i + 7` always differ by
exactly 1; the first increment occurs after `7 - pad` days — i.e. only after
7 calendar days exactly when the range begins on a Monday (`pad = 0`). -/
theorem C9_weekly_increment (days : List (ℕ × ℚ)) (cells : List GridCell)
    (hok : dateGridMap days = Except.ok cells) :
    (∀ i, i + 7 < days.length →
      (cellAt cells (i + 7)).semana = (cellAt cells i).semana + 1) ∧
    (∀ i, i < days.length → i < 7 - pad days → (cellAt cells i).semana = 0) ∧
    (7 - pad days < days.length → (cellAt cells (7 - pad days)).semana = 1) := by
  have hpad : pad days < 7 := Nat.mod_lt _ (by norm_num)
  refine ⟨?_, ?_, ?_⟩
  · intro i hi
    rw [dateGridMap_cellAt hok (by omega : i < days.length),
      dateGridMap_cellAt hok (by omega : i + 7 < days.length)]
    show (pad days + (i + 7)) / 7 = (pad days + i) / 7 + 1
    omega
  · intro i hi hlt
    rw [dateGridMap_cellAt hok hi]
    show (pad days + i) / 7 = 0
    omega
  · intro hlt
    rw [dateGridMap_cellAt hok hlt]
    show (pad days + (7 - pad days)) / 7 = 1
    omega

set_option maxRecDepth 8000 in
/-- C9 witness: for the Sunday-start range the increment to week 1 happens at
offset `7 - pad = 1`. -/
theorem C9_weekly_increment_witness :
    7 - pad exDomingo < exDomingo.length ∧
    (cellAt (buildCells exDomingo (semanaSlice (pad exDomingo) exDomingo.length))
      (7 - pad exDomingo)).semana = 1 :=
  ⟨by decide,
    (C9_weekly_increment exDomingo _
      ((dateGridMap_ok_iff _ _).mpr ⟨by decide, by decide, rfl⟩)).2.2 (by decide)⟩

/-- C10: the day at offset `i` gets weekday `(pad + i) % 7` and week index
`(pad + i) / 7`; `semana * 7 + dayofweek` recovers `pad + i`, so the cell
coordinate pair uniquely determines the offset and the mapping is
injective. -/
theorem C10_cell_injective (days : List (ℕ × ℚ)) (cells : List GridCell)
    (hok : dateGridMap days = Except.ok cells) :
    (∀ i, i < days.length →
      (cellAt cells i).dayofweek = (pad days + i) % 7 ∧
      (cellAt cells i).semana = (pad days + i) / 7 ∧
      (cellAt cells i).semana * 7 + (cellAt cells i).dayofweek = pad days + i) ∧
    (∀ i j, i < days.length → j < days.length →
      (cellAt cells i).semana = (cellAt cells j).semana →
      (cellAt cells i).dayofweek = (cellAt cells j).dayofweek → i = j) := by
  have hcoord : ∀ i, i < days.length →
      (cellAt cells i).dayofweek = (pad days + i) % 7 ∧
      (cellAt cells i).semana = (pad days + i) / 7 ∧
      (cellAt cells i).semana * 7 + (cellAt cells i).dayofweek = pad days + i := by
    intro i hi
    rw [dateGridMap_cellAt hok hi]
    refine ⟨pad_add_eq days i, rfl, ?_⟩
    show (pad days + i) / 7 * 7 + ((days.getD 0 (0, 0)).1 + i) % 7 = pad days + i
    rw [pad_add_eq days i]
    omega
  refine ⟨hcoord, ?_⟩
  intro i j hi hj hs hd
  obtain ⟨-, -, e1⟩ := hcoord i hi
  obtain ⟨-, -, e2⟩ := hcoord j hj
  rw [hs, hd] at e1
  omega

set_option maxRecDepth 8000 in
/-- C10 witness: a concrete 10-day range, checked at offset 3. -/
theorem C10_cell_injective_witness :
    3 < diasC10.length ∧
    (cellAt (buildCells diasC10 (semanaSlice (pad diasC10) diasC10.length)) 3).dayofweek =
      (pad diasC10 + 3) % 7 :=
  ⟨by decide,
    ((C10_cell_injective diasC10 _
      ((dateGridMap_ok_iff _ _).mpr ⟨by decide, by decide, rfl⟩)).1 3 (by decide)).1⟩

end DengueCalendario
